import Mathlib

/-!
Verification of the AuthDecode commitment-and-proof core.

Part 1: the arithmetic circuit of src/authdecode/src/halo2_backend/circuit.rs.
The circuit works over the base field of the pallas curve (type F =
pallas::Base in the source).  Gates are embedded as the polynomial identity
that holds on a row when the gate's selector is active (the source emits
sel * (expr - expected); with the selector on this is expr = expected).
A satisfying assignment is embedded as one value per copy-constraint
equivalence class of cells, with the gate equations as a predicate; halo2's
permutation argument makes all cells of a class equal, so this quotient is
faithful.
-/

/-- The modulus of the base field of the pallas curve (pasta_curves::Fp),
the field the circuit in halo2_backend/circuit.rs is defined over. -/
def pallasP : ℕ := 2 ^ 254 + 45560315531419706090280762371685220353

/-- The circuit field, pallas::Base. -/
abbrev Fp := ZMod pallasP

instance : NeZero pallasP := ⟨by unfold pallasP; positivity⟩

instance : Fact (1 < pallasP) := ⟨by norm_num [pallasP]⟩

/-- CELLS_PER_ROW: advice cells per row holding plaintext bits, and instance
cells per row holding deltas. -/
abbrev CELLS_PER_ROW : ℕ := 64

/-- USEFUL_ROWS: rows usable by the circuit at K = 6. -/
abbrev USEFUL_ROWS : ℕ := 56

/-- TOTAL_FIELD_ELEMENTS: the number of field elements decoded and hashed. -/
abbrev TOTAL_FIELD_ELEMENTS : ℕ := 14

/-- The absolute row carrying limb j of field element e: synthesize places
limb j of element e at row 4 * e + j of the main region. -/
def rowOf (e : Fin 14) (j : Fin 4) : Fin 56 :=
  ⟨4 * e.val + j.val, by omega⟩

/-- Gate "dot product": with selector_dot_product active on a row, the sum
over the 64 columns of delta_i * bit_i equals the dot_product cell. -/
def dotProductGate (delta bit : Fin 64 → Fp) (expected : Fp) : Prop :=
  (∑ i : Fin 64, delta i * bit i) = expected

/-- Gate "binary check": with selector_binary_check active, each of the 64
bit cells b satisfies b * b - b = 0. -/
def binaryCheckGate (bit : Fin 64 → Fp) : Prop :=
  ∀ i : Fin 64, bit i * bit i - bit i = 0

/-- Gate "compose limb" for limb index idx: the bits of the row, weighted
MSB-first by 2 ^ (255 - 64 * idx - i), sum to the expected_limbs cell. -/
def composeLimbGate (idx : ℕ) (bit : Fin 64 → Fp) (expected : Fp) : Prop :=
  (∑ i : Fin 64, bit i * (2 : Fp) ^ (255 - 64 * idx - i.val)) = expected

/-- Gate "sum4": the first four scratch cells sum to the fifth. -/
def sum4Gate (a b c d e : Fp) : Prop := a + b + c + d = e

/-- Gate "sum2": the first two scratch cells sum to the fifth. -/
def sum2Gate (a b e : Fp) : Prop := a + b = e

/-- One value per copy-constraint class of the cells of the circuit that the
gates of halo2_backend/circuit.rs touch.  publicInputs holds the single
public-scalar instance column: row 0 the plaintext hash, row 1 the label sum
(encoding sum) hash, row 2 the zero sum.  deltas holds the 64 delta instance
columns, indexed row-first. -/
structure Assignment where
  bits : Fin 56 → Fin 64 → Fp
  deltas : Fin 56 → Fin 64 → Fp
  publicInputs : Fin 3 → Fp
  dotProduct : Fin 56 → Fp
  expectedLimbs : Fin 56 → Fp
  plaintextSalt : Fp
  labelSumSalt : Fp
  levelTwoSums : Fin 14 → Fp
  levelThreeSums : Fin 4 → Fp
  grandDotProduct : Fp
  zeroSumCell : Fp
  labelSum : Fp
  plaintextCells : Fin 14 → Fp
  rate2Digest : Fp
  rate15Digest : Fp

/-- The constraints that synthesize (halo2_backend/circuit.rs) places on an
assignment, with the Poseidon gadgets abstracted as the functions
poseidonRate2 and poseidonRate15 (the Poseidon primitive is outside the
core; only its interface is used).  Selector placement follows synthesize:
binary check, dot product and one compose-limb selector on each of the 56
bit rows; 14 sum4 gates folding the per-row dot products; the 14 level-2
sums folded as chunks of sizes 4, 4, 4 and 2; a final sum4; the zero sum
copied in from instance row 2; a sum2 producing the label sum; 14 sum4
gates recomposing each element from its 4 limbs; the two hash outputs
constrained to instance rows 1 and 0. -/
structure Satisfies (poseidonRate2 : Fp → Fp → Fp)
    (poseidonRate15 : (Fin 15 → Fp) → Fp) (a : Assignment) : Prop where
  binary : ∀ r : Fin 56, binaryCheckGate (a.bits r)
  dot : ∀ r : Fin 56, dotProductGate (a.deltas r) (a.bits r) (a.dotProduct r)
  compose : ∀ e : Fin 14, ∀ j : Fin 4,
    composeLimbGate j.val (a.bits (rowOf e j)) (a.expectedLimbs (rowOf e j))
  levelTwo : ∀ e : Fin 14,
    sum4Gate (a.dotProduct (rowOf e 0)) (a.dotProduct (rowOf e 1))
      (a.dotProduct (rowOf e 2)) (a.dotProduct (rowOf e 3)) (a.levelTwoSums e)
  levelThreeA : sum4Gate (a.levelTwoSums 0) (a.levelTwoSums 1)
    (a.levelTwoSums 2) (a.levelTwoSums 3) (a.levelThreeSums 0)
  levelThreeB : sum4Gate (a.levelTwoSums 4) (a.levelTwoSums 5)
    (a.levelTwoSums 6) (a.levelTwoSums 7) (a.levelThreeSums 1)
  levelThreeC : sum4Gate (a.levelTwoSums 8) (a.levelTwoSums 9)
    (a.levelTwoSums 10) (a.levelTwoSums 11) (a.levelThreeSums 2)
  levelThreeD : sum2Gate (a.levelTwoSums 12) (a.levelTwoSums 13)
    (a.levelThreeSums 3)
  levelFour : sum4Gate (a.levelThreeSums 0) (a.levelThreeSums 1)
    (a.levelThreeSums 2) (a.levelThreeSums 3) a.grandDotProduct
  zeroCopy : a.zeroSumCell = a.publicInputs 2
  labelSumGate : sum2Gate a.grandDotProduct a.zeroSumCell a.labelSum
  elems : ∀ e : Fin 14,
    sum4Gate (a.expectedLimbs (rowOf e 0)) (a.expectedLimbs (rowOf e 1))
      (a.expectedLimbs (rowOf e 2)) (a.expectedLimbs (rowOf e 3))
      (a.plaintextCells e)
  hash2 : a.rate2Digest = poseidonRate2 a.labelSum a.labelSumSalt
  hash2Pub : a.rate2Digest = a.publicInputs 1
  hash15 : a.rate15Digest = poseidonRate15
    (fun i => if h : i.val < 14 then a.plaintextCells ⟨i.val, h⟩
              else a.plaintextSalt)
  hash15Pub : a.rate15Digest = a.publicInputs 0

/-- Expansion of a sum over Fin 14 into its 14 terms. -/
lemma sum_univ_fourteen {M : Type} [AddCommMonoid M] (g : Fin 14 → M) :
    (∑ i : Fin 14, g i) =
      g 0 + g 1 + g 2 + g 3 + g 4 + g 5 + g 6 + g 7 + g 8 + g 9 + g 10 +
        g 11 + g 12 + g 13 := by
  rw [Fin.sum_univ_castSucc, Fin.sum_univ_castSucc, Fin.sum_univ_castSucc,
    Fin.sum_univ_castSucc, Fin.sum_univ_castSucc, Fin.sum_univ_castSucc,
    Fin.sum_univ_eight]
  rfl

/-- The bijection between (element, limb) pairs and the 56 bit rows. -/
def rowEquiv : Fin 14 × Fin 4 ≃ Fin 56 where
  toFun := fun p => rowOf p.1 p.2
  invFun := fun r => (⟨r.val / 4, by omega⟩, ⟨r.val % 4, by omega⟩)
  left_inv := by
    rintro ⟨e, j⟩
    have he := e.isLt
    have hj := j.isLt
    simp only [rowOf]
    ext <;> simp <;> omega
  right_inv := by
    intro r
    have hr := r.isLt
    simp only [rowOf]
    ext
    simp
    omega

/-- The 14-by-4 block structure of the 56 bit rows: a sum over all rows is
the sum over elements of the sums over their 4 limb rows. -/
lemma sum_rows_regroup {M : Type} [AddCommMonoid M] (g : Fin 56 → M) :
    (∑ r : Fin 56, g r) =
      ∑ e : Fin 14, (g (rowOf e 0) + g (rowOf e 1) + g (rowOf e 2) +
        g (rowOf e 3)) := by
  rw [← Equiv.sum_comp rowEquiv g, Fintype.sum_prod_type]
  refine Finset.sum_congr rfl fun e _ => ?_
  rw [Fin.sum_univ_four]
  rfl

/-- C4: for every limb index idx in 0..4, the compose_limb gate with that
index enforces, on a row where its selector is active, that the MSB-first
weighted sum of the 64 bit cells with weights 2 ^ (255 - 64 * idx - c)
equals the expected_limbs cell; equivalently the cell holds the 64-bit
integer value of the row left-shifted by 192 - 64 * idx bits, so limb
index 0 is the most-significant limb (weight 2 ^ 192 for row 0, 2 ^ 128
for row 1, 2 ^ 64 for row 2, 2 ^ 0 for row 3). -/
theorem composeLimb_gate_shifts_limb (idx : Fin 4) (bit : Fin 64 → Fp)
    (expected : Fp) :
    composeLimbGate idx.val bit expected ↔
      expected = (2 : Fp) ^ (192 - 64 * idx.val) *
        ∑ c : Fin 64, bit c * (2 : Fp) ^ (63 - c.val) := by
  have key : (∑ i : Fin 64, bit i * (2 : Fp) ^ (255 - 64 * idx.val - i.val))
      = (2 : Fp) ^ (192 - 64 * idx.val) *
        ∑ c : Fin 64, bit c * (2 : Fp) ^ (63 - c.val) := by
    rw [Finset.mul_sum]
    refine Finset.sum_congr rfl fun c _ => ?_
    have hc := c.isLt
    have hidx := idx.isLt
    have hexp : 255 - 64 * idx.val - c.val =
        (192 - 64 * idx.val) + (63 - c.val) := by omega
    rw [hexp, pow_add]
    ring
  unfold composeLimbGate
  constructor
  · intro h
    rw [← h]
    exact key
  · intro h
    rw [h]
    exact key

/-- C3: in every satisfying assignment, the value fed as the first input to
the arity-2 Poseidon (the label sum cell) equals the zero sum copied from
row 2 of the public_inputs instance column plus the sum over all 56 bit
rows and 64 columns of delta * bit, and the arity-2 Poseidon output on
(labelSum, labelSumSalt) is constrained equal to row 1 of public_inputs. -/
theorem label_sum_binding {p2 : Fp → Fp → Fp} {p15 : (Fin 15 → Fp) → Fp}
    {a : Assignment} (h : Satisfies p2 p15 a) :
    a.labelSum = a.publicInputs 2 +
      ∑ r : Fin 56, ∑ c : Fin 64, a.deltas r c * a.bits r c
    ∧ p2 a.labelSum a.labelSumSalt = a.publicInputs 1 := by
  constructor
  · have h1 : (∑ r : Fin 56, ∑ c : Fin 64, a.deltas r c * a.bits r c) =
        ∑ r : Fin 56, a.dotProduct r :=
      Finset.sum_congr rfl fun r _ => h.dot r
    rw [h1, sum_rows_regroup fun r => a.dotProduct r]
    have h2 : (∑ e : Fin 14, (a.dotProduct (rowOf e 0) +
        a.dotProduct (rowOf e 1) + a.dotProduct (rowOf e 2) +
        a.dotProduct (rowOf e 3))) = ∑ e : Fin 14, a.levelTwoSums e :=
      Finset.sum_congr rfl fun e _ => h.levelTwo e
    rw [h2, sum_univ_fourteen]
    have h3a := h.levelThreeA
    have h3b := h.levelThreeB
    have h3c := h.levelThreeC
    have h3d := h.levelThreeD
    have h4 := h.levelFour
    have hz := h.zeroCopy
    have hl := h.labelSumGate
    simp only [sum4Gate, sum2Gate] at h3a h3b h3c h3d h4 hl
    linear_combination -hl - h4 - h3a - h3b - h3c - h3d + hz
  · rw [← h.hash2]
    exact h.hash2Pub

/-- Replacing the delta instance value at row r, column c with d, leaving
every other cell of the assignment unchanged. -/
def updateDelta (a : Assignment) (r : Fin 56) (c : Fin 64) (d : Fp) :
    Assignment :=
  { a with deltas := fun r2 c2 => if r2 = r ∧ c2 = c then d
                                  else a.deltas r2 c2 }

/-- C8: if the witnessed bit at (r, c) is 0, replacing the delta at (r, c)
by any field element leaves every per-row dot product unchanged and the
whole constraint system still satisfied; if the bit at (r, c) is 1,
replacing that delta by a different value changes the dot product of
row r. -/
theorem delta_of_zero_bit_immaterial {p2 : Fp → Fp → Fp}
    {p15 : (Fin 15 → Fp) → Fp} {a : Assignment} (h : Satisfies p2 p15 a)
    (r : Fin 56) (c : Fin 64) (d : Fp) :
    (a.bits r c = 0 →
      (∀ r2 : Fin 56,
        (∑ c2 : Fin 64, (updateDelta a r c d).deltas r2 c2 * a.bits r2 c2) =
          ∑ c2 : Fin 64, a.deltas r2 c2 * a.bits r2 c2)
      ∧ Satisfies p2 p15 (updateDelta a r c d))
    ∧ (a.bits r c = 1 → d ≠ a.deltas r c →
      (∑ c2 : Fin 64, (updateDelta a r c d).deltas r c2 * a.bits r c2) ≠
        ∑ c2 : Fin 64, a.deltas r c2 * a.bits r c2) := by
  constructor
  · intro hb0
    have hrow : ∀ r2 : Fin 56,
        (∑ c2 : Fin 64, (updateDelta a r c d).deltas r2 c2 * a.bits r2 c2) =
          ∑ c2 : Fin 64, a.deltas r2 c2 * a.bits r2 c2 := by
      intro r2
      refine Finset.sum_congr rfl fun c2 _ => ?_
      by_cases h12 : r2 = r ∧ c2 = c
      · obtain ⟨hr2, hc2⟩ := h12
        subst hr2
        subst hc2
        simp [updateDelta, hb0]
      · simp [updateDelta, h12]
    refine ⟨hrow, ?_, fun r2 => ?_, h.compose, h.levelTwo, h.levelThreeA,
      h.levelThreeB, h.levelThreeC, h.levelThreeD, h.levelFour, h.zeroCopy,
      h.labelSumGate, h.elems, h.hash2, h.hash2Pub, h.hash15, h.hash15Pub⟩
    · exact h.binary
    · have hd := h.dot r2
      unfold dotProductGate at hd ⊢
      show (∑ c2 : Fin 64,
        (updateDelta a r c d).deltas r2 c2 * a.bits r2 c2) = a.dotProduct r2
      rw [hrow r2]
      exact hd
  · intro hb1 hne heq
    have hsplit :
        (∑ c2 : Fin 64, (updateDelta a r c d).deltas r c2 * a.bits r c2) -
          (∑ c2 : Fin 64, a.deltas r c2 * a.bits r c2) = d - a.deltas r c := by
      rw [← Finset.sum_sub_distrib]
      rw [Finset.sum_eq_single c]
      · simp [updateDelta, hb1]
      · intro c2 _ hc2
        simp [updateDelta, hc2]
      · intro habs
        exact absurd (Finset.mem_univ c) habs
    rw [heq, sub_self] at hsplit
    exact hne (sub_eq_zero.mp hsplit.symm)

/-- Sum of the binary weights below n. -/
lemma sum_two_pow_range (n : ℕ) : (∑ i ∈ Finset.range n, 2 ^ i) = 2 ^ n - 1 := by
  induction n with
  | zero => simp
  | succ n ih =>
    rw [Finset.sum_range_succ, ih]
    have hp : 0 < 2 ^ n := Nat.pos_pow_of_pos n (by omega)
    rw [pow_succ]
    omega

/-- The natural value of a 0/1 row packed MSB-first is below 2 ^ 64. -/
lemma packBound (g : Fin 64 → ℕ) (hg : ∀ c, g c ≤ 1) :
    (∑ c : Fin 64, g c * 2 ^ (63 - c.val)) < 2 ^ 64 := by
  have hle : (∑ c : Fin 64, g c * 2 ^ (63 - c.val)) ≤
      ∑ c : Fin 64, 2 ^ (63 - c.val) := by
    refine Finset.sum_le_sum fun c _ => ?_
    calc g c * 2 ^ (63 - c.val) ≤ 1 * 2 ^ (63 - c.val) :=
          Nat.mul_le_mul_right _ (hg c)
      _ = 2 ^ (63 - c.val) := one_mul _
  have hsum : (∑ c : Fin 64, 2 ^ (63 - c.val)) = 2 ^ 64 - 1 := by
    rw [Fin.sum_univ_eq_sum_range (fun i => 2 ^ (63 - i)) 64]
    have := Finset.sum_range_reflect (fun j => 2 ^ j) 64
    simp only [Nat.add_sub_cancel] at this
    calc (∑ i ∈ Finset.range 64, 2 ^ (63 - i)) =
          ∑ i ∈ Finset.range 64, 2 ^ i := this
      _ = 2 ^ 64 - 1 := sum_two_pow_range 64
  omega

/-- With the three leading cells zero, a 0/1 row packed MSB-first is below
2 ^ 61. -/
lemma packBoundTop (g : Fin 64 → ℕ) (hg : ∀ c, g c ≤ 1) (h0 : g 0 = 0)
    (h1 : g 1 = 0) (h2 : g 2 = 0) :
    (∑ c : Fin 64, g c * 2 ^ (63 - c.val)) < 2 ^ 61 := by
  have hle : (∑ c : Fin 64, g c * 2 ^ (63 - c.val)) ≤
      ∑ c : Fin 64, (if c.val < 3 then 0 else 2 ^ (63 - c.val)) := by
    refine Finset.sum_le_sum fun c _ => ?_
    by_cases hc : c.val < 3
    · rw [if_pos hc]
      have hval : c.val = 0 ∨ c.val = 1 ∨ c.val = 2 := by omega
      rcases hval with hv | hv | hv
      · have : c = 0 := Fin.ext (by simp [hv])
        subst this
        simp [h0]
      · have : c = 1 := Fin.ext (by simp [hv])
        subst this
        simp [h1]
      · have : c = 2 := Fin.ext (by simp [hv])
        subst this
        simp [h2]
    · rw [if_neg hc]
      calc g c * 2 ^ (63 - c.val) ≤ 1 * 2 ^ (63 - c.val) :=
            Nat.mul_le_mul_right _ (hg c)
        _ = 2 ^ (63 - c.val) := one_mul _
  have hsum : (∑ c : Fin 64, (if c.val < 3 then 0 else 2 ^ (63 - c.val))) =
      2 ^ 61 - 1 := by
    rw [Fin.sum_univ_eq_sum_range (fun i => if i < 3 then 0 else 2 ^ (63 - i)) 64]
    have hcongr : (∑ i ∈ Finset.range 64, (if i < 3 then 0 else 2 ^ (63 - i)))
        = ∑ i ∈ Finset.range 64, (if 60 < 63 - i then 0 else 2 ^ (63 - i)) := by
      refine Finset.sum_congr rfl fun i hi => ?_
      rw [Finset.mem_range] at hi
      by_cases h3 : i < 3
      · rw [if_pos h3, if_pos (by omega)]
      · rw [if_neg h3, if_neg (by omega)]
    rw [hcongr]
    have hrefl := Finset.sum_range_reflect
      (fun j => if 60 < j then 0 else 2 ^ j) 64
    simp only [Nat.add_sub_cancel] at hrefl
    rw [hrefl]
    rw [Finset.sum_range_succ, Finset.sum_range_succ, Finset.sum_range_succ]
    rw [if_pos (by omega), if_pos (by omega), if_pos (by omega)]
    have hlow : (∑ j ∈ Finset.range 61, (if 60 < j then 0 else 2 ^ j)) =
        ∑ j ∈ Finset.range 61, 2 ^ j := by
      refine Finset.sum_congr rfl fun j hj => ?_
      rw [Finset.mem_range] at hj
      rw [if_neg (by omega)]
    rw [hlow, sum_two_pow_range 61]
    omega
  omega

/-- Factoring the left shift out of a limb composition over the naturals. -/
lemma limb_factor (g : Fin 64 → ℕ) (k : ℕ) (hk : k < 4) :
    (∑ c : Fin 64, g c * 2 ^ (255 - 64 * k - c.val)) =
      2 ^ (192 - 64 * k) * ∑ c : Fin 64, g c * 2 ^ (63 - c.val) := by
  rw [Finset.mul_sum]
  refine Finset.sum_congr rfl fun c _ => ?_
  have hc := c.isLt
  have hexp : 255 - 64 * k - c.val = (192 - 64 * k) + (63 - c.val) := by omega
  rw [hexp, pow_add]
  ring

/-- The natural number 1 if the field element is 1, else 0. -/
def bitNat (x : Fp) : ℕ := if x = 1 then 1 else 0

lemma bitNat_le (x : Fp) : bitNat x ≤ 1 := by
  unfold bitNat
  split <;> omega

lemma bitNat_zero {x : Fp} (h : x = 0) : bitNat x = 0 := by
  subst h
  unfold bitNat
  rw [if_neg zero_ne_one]

lemma cast_bitNat {x : Fp} (hx : x = 0 ∨ x = 1) : (bitNat x : Fp) = x := by
  rcases hx with h | h <;> subst h <;> unfold bitNat
  · rw [if_neg zero_ne_one]
    simp
  · rw [if_pos rfl]
    simp

/-- The MSB-first packed natural value of limb j of field element e, before
the left shift to its position. -/
def limbValNat (a : Assignment) (e : Fin 14) (j : Fin 4) : ℕ :=
  ∑ c : Fin 64, bitNat (a.bits (rowOf e j) c) * 2 ^ (63 - c.val)

/-- Modelled from the spec: the three_bits_zero gate (G6).  The circuit
file that declares it, src/authdecode/src/backend/halo2/prover.rs's
companion circuit module, is not among the sources; only its test
(test_three_bits_zero_fail) and the spec describe it.  On every row that
holds the most-significant limb of a field element (row 4e), the bit cells
in columns 0, 1 and 2 are constrained to zero. -/
def threeBitsZeroGate (a : Assignment) : Prop :=
  ∀ e : Fin 14, a.bits (rowOf e 0) 0 = 0 ∧ a.bits (rowOf e 0) 1 = 0 ∧
    a.bits (rowOf e 0) 2 = 0

/-- C5: with the three_bits_zero gate added to the constraint system, every
satisfying assignment whose bit cells are binary (which the binary_check
gate enforces over the prime circuit field) has the top 3 bits of every
256-bit reassembly equal to 0, and every reassembled field element fits in
USABLE_BITS = 253 bits. -/
theorem three_bits_zero_bounds {p2 : Fp → Fp → Fp}
    {p15 : (Fin 15 → Fp) → Fp} {a : Assignment} (h : Satisfies p2 p15 a)
    (htop : threeBitsZeroGate a)
    (hbin : ∀ r : Fin 56, ∀ c : Fin 64, a.bits r c = 0 ∨ a.bits r c = 1) :
    ∀ e : Fin 14,
      (a.bits (rowOf e 0) 0 = 0 ∧ a.bits (rowOf e 0) 1 = 0 ∧
        a.bits (rowOf e 0) 2 = 0)
      ∧ (a.plaintextCells e).val < 2 ^ 253 := by
  intro e
  obtain ⟨hz0, hz1, hz2⟩ := htop e
  refine ⟨⟨hz0, hz1, hz2⟩, ?_⟩
  have hlimb : ∀ (j : Fin 4) (w : ℕ), w = 192 - 64 * j.val →
      a.expectedLimbs (rowOf e j) = ((2 ^ w * limbValNat a e j : ℕ) : Fp) := by
    intro j w hw
    have hc := h.compose e j
    unfold composeLimbGate at hc
    have hterm : ∀ c : Fin 64,
        ((bitNat (a.bits (rowOf e j) c) *
          2 ^ (255 - 64 * j.val - c.val) : ℕ) : Fp) =
          a.bits (rowOf e j) c * (2 : Fp) ^ (255 - 64 * j.val - c.val) := by
      intro c
      push_cast [cast_bitNat (hbin (rowOf e j) c)]
      ring
    rw [← hc]
    simp only [limbValNat, hw]
    rw [← limb_factor (fun c => bitNat (a.bits (rowOf e j) c)) j.val j.isLt]
    rw [Nat.cast_sum]
    exact (Finset.sum_congr rfl fun c _ => hterm c).symm
  have hcells : a.plaintextCells e =
      ((2 ^ 192 * limbValNat a e 0 + 2 ^ 128 * limbValNat a e 1 +
        2 ^ 64 * limbValNat a e 2 + limbValNat a e 3 : ℕ) : Fp) := by
    have hs := h.elems e
    unfold sum4Gate at hs
    rw [← hs, hlimb 0 192 (by decide), hlimb 1 128 (by decide),
      hlimb 2 64 (by decide), hlimb 3 0 (by decide)]
    push_cast
    ring
  have hN : 2 ^ 192 * limbValNat a e 0 + 2 ^ 128 * limbValNat a e 1 +
      2 ^ 64 * limbValNat a e 2 + limbValNat a e 3 < 2 ^ 253 := by
    have hm0 : limbValNat a e 0 < 2 ^ 61 :=
      packBoundTop _ (fun c => bitNat_le _) (bitNat_zero hz0)
        (bitNat_zero hz1) (bitNat_zero hz2)
    have hm1 : limbValNat a e 1 < 2 ^ 64 := packBound _ fun c => bitNat_le _
    have hm2 : limbValNat a e 2 < 2 ^ 64 := packBound _ fun c => bitNat_le _
    have hm3 : limbValNat a e 3 < 2 ^ 64 := packBound _ fun c => bitNat_le _
    have hb0 : 2 ^ 192 * limbValNat a e 0 ≤ 2 ^ 192 * (2 ^ 61 - 1) :=
      Nat.mul_le_mul_left _ (by omega)
    have hb1 : 2 ^ 128 * limbValNat a e 1 ≤ 2 ^ 128 * (2 ^ 64 - 1) :=
      Nat.mul_le_mul_left _ (by omega)
    have hb2 : 2 ^ 64 * limbValNat a e 2 ≤ 2 ^ 64 * (2 ^ 64 - 1) :=
      Nat.mul_le_mul_left _ (by omega)
    have htotal : 2 ^ 192 * (2 ^ 61 - 1) + 2 ^ 128 * (2 ^ 64 - 1) +
        2 ^ 64 * (2 ^ 64 - 1) + (2 ^ 64 - 1) < 2 ^ 253 := by norm_num
    omega
  rw [hcells, ZMod.val_cast_of_lt (lt_trans hN (by norm_num [pallasP]))]
  exact hN

/-- The all-zero assignment, used to exhibit concrete satisfying inputs. -/
def zeroAssignment : Assignment where
  bits := fun _ _ => 0
  deltas := fun _ _ => 0
  publicInputs := fun _ => 0
  dotProduct := fun _ => 0
  expectedLimbs := fun _ => 0
  plaintextSalt := 0
  labelSumSalt := 0
  levelTwoSums := fun _ => 0
  levelThreeSums := fun _ => 0
  grandDotProduct := 0
  zeroSumCell := 0
  labelSum := 0
  plaintextCells := fun _ => 0
  rate2Digest := 0
  rate15Digest := 0

/-- A concrete stand-in for the arity-2 Poseidon interface. -/
def zeroHash2 : Fp → Fp → Fp := fun _ _ => 0

/-- A concrete stand-in for the arity-15 Poseidon interface. -/
def zeroHash15 : (Fin 15 → Fp) → Fp := fun _ => 0

lemma zeroAssignment_satisfies : Satisfies zeroHash2 zeroHash15 zeroAssignment := by
  refine ⟨?_, ?_, ?_, ?_, ?_, ?_, ?_, ?_, ?_, ?_, ?_, ?_, ?_, ?_, ?_, ?_⟩ <;>
    simp [zeroAssignment, zeroHash2, zeroHash15, binaryCheckGate,
      dotProductGate, composeLimbGate, sum4Gate, sum2Gate]

/-- Witness for C3 at the all-zero assignment. -/
theorem label_sum_binding_witness :
    zeroAssignment.labelSum = zeroAssignment.publicInputs 2 +
      ∑ r : Fin 56, ∑ c : Fin 64,
        zeroAssignment.deltas r c * zeroAssignment.bits r c
    ∧ zeroHash2 zeroAssignment.labelSum zeroAssignment.labelSumSalt =
      zeroAssignment.publicInputs 1 :=
  label_sum_binding zeroAssignment_satisfies

/-- Witness for C4 at limb index 0 and the all-zero row. -/
theorem composeLimb_gate_shifts_limb_witness :
    composeLimbGate (0 : Fin 4).val (fun _ => 0) 0 ↔
      (0 : Fp) = (2 : Fp) ^ (192 - 64 * (0 : Fin 4).val) *
        ∑ c : Fin 64, (fun _ => (0 : Fp)) c * (2 : Fp) ^ (63 - c.val) :=
  composeLimb_gate_shifts_limb 0 (fun _ => 0) 0

/-- Witness for C5 at the all-zero assignment. -/
theorem three_bits_zero_bounds_witness :
    (zeroAssignment.plaintextCells 0).val < 2 ^ 253 :=
  ((three_bits_zero_bounds zeroAssignment_satisfies
    (fun _ => ⟨rfl, rfl, rfl⟩) (fun _ _ => Or.inl rfl)) 0).2

/-- Witness for C8: overwriting the delta of a zero bit keeps the all-zero
assignment satisfying. -/
theorem delta_of_zero_bit_immaterial_witness :
    Satisfies zeroHash2 zeroHash15 (updateDelta zeroAssignment 0 0 1) :=
  ((delta_of_zero_bit_immaterial zeroAssignment_satisfies 0 0 1).1 rfl).2

/-!
Part 2: the commitment layer of src/authdecode/src/backend/halo2/prover.rs.
This backend works over the scalar field of the bn256 curve
(halo2curves::bn256::Fr).  The companion modules backend/halo2/circuit.rs,
backend/halo2/utils.rs, backend/halo2/poseidon.rs and prover/error.rs are
not among the sources; the constants and helpers they provide (CHUNK_SIZE,
USABLE_BITS, SALT_SIZE, boolvec_to_u8vec composed with from_bytes_be, the
Poseidon primitives) are modelled from the spec where noted.  The Poseidon
hash functions are abstract parameters throughout.
-/

/-- The modulus of the scalar field of the bn256 curve
(halo2curves::bn256::Fr), the field of the backend/halo2 prover. -/
def bn256Q : ℕ :=
  21888242871839275222246405745257275088548364400416034343698204186575808495617

/-- The prover backend field, bn256 Fr. -/
abbrev Fb := ZMod bn256Q

instance : NeZero bn256Q := ⟨by unfold bn256Q; positivity⟩

/-- Modelled from the spec: USABLE_BITS = 253, the number of plaintext bits
safely packable into one field element (the defining module
backend/halo2/circuit.rs is not among the sources). -/
abbrev USABLE_BITS : ℕ := 253

/-- Modelled from the spec: FIELD_ELEMENTS = 14 field elements per chunk. -/
abbrev FIELD_ELEMENTS : ℕ := 14

/-- Modelled from the spec: CHUNK_SIZE = USABLE_BITS * FIELD_ELEMENTS
plaintext bits per chunk. -/
abbrev CHUNK_SIZE : ℕ := USABLE_BITS * FIELD_ELEMENTS

/-- Modelled from the spec: SALT_SIZE = 125, the bit size of a salt. -/
abbrev SALT_SIZE : ℕ := 125

/-- The natural value of a bit vector read MSB-first. -/
def bitsToNat (l : List Bool) : ℕ :=
  l.foldl (fun acc b => 2 * acc + (if b then 1 else 0)) 0

/-- Modelled from the spec: MSB-first packing of a bit vector into a field
element; this is Bn256F::from_bytes_be(boolvec_to_u8vec(bits)) of the
source, whose helpers (utils.rs) are not among the sources.  bits_to_f of
backend/halo2/utils.rs is the same packing. -/
def bitsToFieldB (l : List Bool) : Fb := (bitsToNat l : Fb)

lemma bitsToNat_foldl (a : ℕ) (l : List Bool) :
    l.foldl (fun acc b => 2 * acc + (if b then 1 else 0)) a =
      a * 2 ^ l.length + bitsToNat l := by
  induction l generalizing a with
  | nil => simp [bitsToNat]
  | cons x xs ih =>
    have hstep : (x :: xs).foldl
        (fun acc b => 2 * acc + (if b then 1 else 0)) a =
        xs.foldl (fun acc b => 2 * acc + (if b then 1 else 0))
          (2 * a + (if x then 1 else 0)) := rfl
    have hcons : bitsToNat (x :: xs) =
        xs.foldl (fun acc b => 2 * acc + (if b then 1 else 0))
          (2 * 0 + (if x then 1 else 0)) := rfl
    rw [hstep, ih (2 * a + (if x then 1 else 0)), hcons,
      ih (2 * 0 + (if x then 1 else 0)), List.length_cons]
    split <;> ring

lemma bitsToNat_cons (x : Bool) (xs : List Bool) :
    bitsToNat (x :: xs) =
      (if x then 2 ^ xs.length else 0) + bitsToNat xs := by
  have hcons : bitsToNat (x :: xs) =
      xs.foldl (fun acc b => 2 * acc + (if b then 1 else 0))
        (2 * 0 + (if x then 1 else 0)) := rfl
  rw [hcons, bitsToNat_foldl]
  split <;> ring

lemma bitsToNat_lt (l : List Bool) : bitsToNat l < 2 ^ l.length := by
  induction l with
  | nil => simp [bitsToNat]
  | cons x xs ih =>
    rw [bitsToNat_cons]
    have : (2 : ℕ) ^ (x :: xs).length = 2 ^ xs.length + 2 ^ xs.length := by
      simp [List.length_cons, pow_succ]
      ring
    rw [this]
    split <;> omega

/-- The MSB-first value as a sum of weighted bits at their positions. -/
lemma bitsToNat_eq_sum (l : List Bool) :
    bitsToNat l = ∑ j ∈ Finset.range l.length,
      (if l.getD j false then 2 ^ (l.length - 1 - j) else 0) := by
  induction l with
  | nil => simp [bitsToNat]
  | cons x xs ih =>
    rw [bitsToNat_cons, ih]
    rw [List.length_cons, Finset.sum_range_succ']
    simp only [List.getD_cons_succ, List.getD_cons_zero]
    have h1 : ∀ j, xs.length + 1 - 1 - (j + 1) = xs.length - 1 - j := by omega
    have h2 : xs.length + 1 - 1 - 0 = xs.length := by omega
    rw [h2]
    have h3 : (∑ j ∈ Finset.range xs.length,
        (if xs.getD j false then 2 ^ (xs.length + 1 - 1 - (j + 1)) else 0)) =
        ∑ j ∈ Finset.range xs.length,
          (if xs.getD j false then 2 ^ (xs.length - 1 - j) else 0) := by
      refine Finset.sum_congr rfl fun j _ => ?_
      rw [h1 j]
    rw [h3]
    ring

/-- Rust slice::chunks on a list: consecutive groups of k elements (the
last group may be shorter).  An empty list, or k = 0, yields no chunks. -/
def listChunks (k : ℕ) (l : List Bool) : List (List Bool) :=
  if h : k = 0 ∨ l = [] then []
  else l.take k :: listChunks k (l.drop k)
termination_by l.length
decreasing_by
  push_neg at h
  obtain ⟨hk, hl⟩ := h
  have hlen : 0 < l.length := List.length_pos.mpr hl
  simp only [List.length_drop]
  omega

lemma listChunks_nil (k : ℕ) : listChunks k [] = [] := by
  unfold listChunks
  simp

lemma listChunks_step (k : ℕ) (l : List Bool) (hk : k ≠ 0) (hl : l ≠ []) :
    listChunks k l = l.take k :: listChunks k (l.drop k) := by
  rw [listChunks]
  rw [dif_neg (by push_neg; exact ⟨hk, hl⟩)]

/-- A list of length k * n splits into the n aligned groups of k. -/
lemma listChunks_eq_map (k : ℕ) (hk : 0 < k) (n : ℕ) :
    ∀ l : List Bool, l.length = k * n →
      listChunks k l = (List.range n).map fun i => (l.drop (k * i)).take k := by
  induction n with
  | zero =>
    intro l hl
    have : l = [] := List.eq_nil_of_length_eq_zero (by omega)
    subst this
    simp [listChunks_nil]
  | succ n ih =>
    intro l hl
    have hne : l ≠ [] := by
      intro habs
      subst habs
      simp at hl
      omega
    rw [listChunks_step k l (by omega) hne]
    have hdrop : (l.drop k).length = k * n := by
      simp only [List.length_drop]
      have : k * (n + 1) = k * n + k := by ring
      omega
    rw [ih (l.drop k) hdrop]
    rw [List.range_succ_eq_map]
    simp only [List.map_cons, List.map_map]
    congr 1
    refine List.map_congr_left fun i _ => ?_
    simp only [Function.comp_apply]
    rw [List.drop_drop]
    congr 2
    rw [Nat.succ_eq_add_one]
    ring

/-- The error type of the prover (prover/error.rs is not among the sources;
the variants used by the commitment layer and the WrongInputLength variant
named by the spec taxonomy are modelled from the spec). -/
inductive ProverError where
  | InternalError : ProverError
  | WrongPoseidonInput : ProverError
  | ProvingBackendError : ProverError
  | WrongInputLength : ProverError
deriving DecidableEq

/-- hash_internal of backend/halo2/prover.rs: dispatches on the number of
inputs to the arity-15, arity-2 or arity-1 Poseidon (abstract parameters),
failing with WrongPoseidonInput otherwise. -/
def hashInternal (h15 h2 h1 : List Fb → Fb) (inputs : List Fb) :
    Except ProverError Fb :=
  if inputs.length = 15 then .ok (h15 inputs)
  else if inputs.length = 2 then .ok (h2 inputs)
  else if inputs.length = 1 then .ok (h1 inputs)
  else .error .WrongPoseidonInput

/-- Right-padding of the plaintext with zero bits to the chunk size, as
commit_plaintext and prepare_circuit_input both perform. -/
def paddedBits (p : List Bool) : List Bool :=
  p ++ List.replicate (CHUNK_SIZE - p.length) false

/-- commit_plaintext of backend/halo2/prover.rs.  The thread-local RNG is
modelled by passing the SALT_SIZE random salt bits as an input; the
oversized-input check returns InternalError exactly as the source does
(the source marks it with a TODO for a proper error). -/
def commitPlaintext (h15 h2 h1 : List Fb → Fb) (saltBits : List Bool)
    (plaintext : List Bool) : Except ProverError (Fb × Fb) :=
  if CHUNK_SIZE < plaintext.length then .error .InternalError
  else
    (hashInternal h15 h2 h1
      ((listChunks USABLE_BITS (plaintext ++
          List.replicate (CHUNK_SIZE - plaintext.length) false)).map
        bitsToFieldB ++ [bitsToFieldB saltBits])).map
      fun d => (d, bitsToFieldB saltBits)

/-- commit_encoding_sum of backend/halo2/prover.rs, with the RNG modelled
by the salt-bit input. -/
def commitEncodingSum (h15 h2 h1 : List Fb → Fb) (saltBits : List Bool)
    (encodingSum : Fb) : Except ProverError (Fb × Fb) :=
  (hashInternal h15 h2 h1 [encodingSum, bitsToFieldB saltBits]).map
    fun d => (d, bitsToFieldB saltBits)

lemma paddedBits_length {p : List Bool} (hp : p.length ≤ CHUNK_SIZE) :
    (paddedBits p).length = USABLE_BITS * FIELD_ELEMENTS := by
  have hp2 : p.length ≤ 3542 := hp
  simp only [paddedBits, List.length_append, List.length_replicate]
  show p.length + (3542 - p.length) = 3542
  omega

/-- Evaluation of commit_plaintext on an in-bounds plaintext: it succeeds,
hashing the 14 packed field elements followed by the salt. -/
lemma commitPlaintext_ok (h15 h2 h1 : List Fb → Fb) (saltBits p : List Bool)
    (hp : p.length ≤ CHUNK_SIZE) :
    commitPlaintext h15 h2 h1 saltBits p =
      .ok (h15 ((listChunks USABLE_BITS (paddedBits p)).map bitsToFieldB ++
        [bitsToFieldB saltBits]), bitsToFieldB saltBits) := by
  have hchunkLen : (listChunks USABLE_BITS (paddedBits p)).length = 14 := by
    rw [listChunks_eq_map USABLE_BITS (by norm_num) FIELD_ELEMENTS
      (paddedBits p) (paddedBits_length hp)]
    simp
  unfold commitPlaintext
  rw [if_neg (by omega)]
  rw [show p ++ List.replicate (CHUNK_SIZE - p.length) false = paddedBits p
    from rfl]
  unfold hashInternal
  rw [if_pos (by
    rw [List.length_append, List.length_map, hchunkLen]
    rfl)]
  rfl

/-- The packed value of the i-th aligned 253-bit group of a bit vector. -/
lemma chunk_value (x : List Bool) (i : ℕ) (hx : 253 * i + 253 ≤ x.length) :
    bitsToNat ((x.drop (253 * i)).take 253) =
      ∑ j ∈ Finset.range 253,
        (if x.getD (253 * i + j) false then 2 ^ (253 - 1 - j) else 0) := by
  have hclen : ((x.drop (253 * i)).take 253).length = 253 := by
    rw [List.length_take, List.length_drop]
    omega
  rw [bitsToNat_eq_sum, hclen]
  refine Finset.sum_congr rfl fun j hj => ?_
  rw [Finset.mem_range] at hj
  have hgd : ((x.drop (253 * i)).take 253).getD j false =
      x.getD (253 * i + j) false := by
    rw [List.getD_eq_getElem?_getD, List.getD_eq_getElem?_getD]
    rw [List.getElem?_take, if_pos hj, List.getElem?_drop]
  rw [hgd]

/-- The i-th field element as the claim describes it: pack the i-th
consecutive group of USABLE_BITS bits of the zero-padded plaintext
MSB-first, bit j weighted by 2 ^ (USABLE_BITS - 1 - j). -/
def specFieldElement (p : List Bool) (i : ℕ) : Fb :=
  ((∑ j ∈ Finset.range USABLE_BITS,
    (if (paddedBits p).getD (USABLE_BITS * i + j) false
     then 2 ^ (USABLE_BITS - 1 - j) else 0) : ℕ) : Fb)

set_option maxRecDepth 4000 in
/-- C1: for every plaintext of at most chunk_size() bits and every salt,
commit_plaintext succeeds and returns (digest, salt) with digest the
arity-15 Poseidon of the 14 field elements obtained by right-padding the
plaintext with zero bits to CHUNK_SIZE and packing each consecutive group
of 253 bits MSB-first, followed by the salt. -/
theorem commitPlaintext_packs_and_hashes (h15 h2 h1 : List Fb → Fb)
    (saltBits p : List Bool) (hp : p.length ≤ CHUNK_SIZE) :
    commitPlaintext h15 h2 h1 saltBits p =
      .ok (h15 ((List.range FIELD_ELEMENTS).map (specFieldElement p) ++
        [bitsToFieldB saltBits]), bitsToFieldB saltBits) := by
  rw [commitPlaintext_ok h15 h2 h1 saltBits p hp]
  rw [listChunks_eq_map USABLE_BITS (by norm_num) FIELD_ELEMENTS
    (paddedBits p) (paddedBits_length hp)]
  rw [List.map_map]
  have hmap : (List.range FIELD_ELEMENTS).map
      (bitsToFieldB ∘ fun i => ((paddedBits p).drop (USABLE_BITS * i)).take
        USABLE_BITS) = (List.range FIELD_ELEMENTS).map (specFieldElement p) := by
    refine List.map_congr_left fun i hi => ?_
    rw [List.mem_range] at hi
    simp only [Function.comp_apply]
    unfold bitsToFieldB specFieldElement
    exact congrArg (fun n : ℕ => (n : Fb))
      (chunk_value (paddedBits p) i (by
        rw [paddedBits_length hp]
        have hi14 : i < 14 := hi
        show 253 * i + 253 ≤ 253 * 14
        omega))
  rw [hmap]

/-- C6 (divergence witness): on a plaintext one bit longer than
CHUNK_SIZE, commit_plaintext fails before any hashing, but with
InternalError, not with the WrongInputLength error the spec names. -/
theorem commitPlaintext_oversized_internal_error (h15 h2 h1 : List Fb → Fb)
    (saltBits : List Bool) :
    commitPlaintext h15 h2 h1 saltBits
        (List.replicate (CHUNK_SIZE + 1) false) =
      .error .InternalError
    ∧ ProverError.InternalError ≠ ProverError.WrongInputLength := by
  constructor
  · unfold commitPlaintext
    rw [if_pos (by simp)]
  · decide

/-- C7: the salt returned by commit_plaintext and by commit_encoding_sum is
the field element packed from the SALT_SIZE = 125 drawn bits, and its
integer value is strictly below 2 ^ 125. -/
theorem commit_salts_within_125_bits (h15 h2 h1 : List Fb → Fb)
    (saltBits p : List Bool) (x : Fb)
    (hs : saltBits.length = SALT_SIZE) (hp : p.length ≤ CHUNK_SIZE) :
    (bitsToFieldB saltBits).val < 2 ^ 125
    ∧ (∃ d1, commitPlaintext h15 h2 h1 saltBits p =
        .ok (d1, bitsToFieldB saltBits))
    ∧ (∃ d2, commitEncodingSum h15 h2 h1 saltBits x =
        .ok (d2, bitsToFieldB saltBits)) := by
  refine ⟨?_, ⟨_, commitPlaintext_ok h15 h2 h1 saltBits p hp⟩,
    ⟨h2 [x, bitsToFieldB saltBits], rfl⟩⟩
  unfold bitsToFieldB
  have hlt : bitsToNat saltBits < 2 ^ 125 := by
    have h0 := bitsToNat_lt saltBits
    rw [hs] at h0
    exact h0
  rw [ZMod.val_cast_of_lt (lt_trans hlt (by norm_num [bn256Q]))]
  exact hlt

/-- LSB-first partial binary expansions recover the residue. -/
lemma sum_bits_eq_mod (v n : ℕ) :
    (∑ j ∈ Finset.range n, v / 2 ^ j % 2 * 2 ^ j) = v % 2 ^ n := by
  induction n with
  | zero => simp [Nat.mod_one]
  | succ n ih =>
    rw [Finset.sum_range_succ, ih, pow_succ, Nat.mod_mul]
    ring

/-- Splitting a range sum at an interior point. -/
lemma sum_range_add_split {M : Type} [AddCommMonoid M] (f : ℕ → M)
    (a b : ℕ) :
    (∑ i ∈ Finset.range (a + b), f i) =
      (∑ i ∈ Finset.range a, f i) + ∑ i ∈ Finset.range b, f (a + i) := by
  induction b with
  | zero => simp
  | succ b ih =>
    rw [Nat.add_succ, Finset.sum_range_succ, ih, Finset.sum_range_succ,
      add_assoc]

/-- Modelled from the spec: bit i (MSB at index 0) of the 256-bit expansion
of a field element, as bigint_to_256bits of the circuit's utils (a module
not among the sources) produces it. -/
def fieldBit (x : Fb) (i : ℕ) : ℕ := x.val / 2 ^ (255 - i) % 2

/-- Modelled from the spec: limb k of the 256-bit expansion, already
left-shifted to its position (split_into_limbs of the spec, bits_to_limbs
of the circuit's utils). -/
def limbOf (x : Fb) (k : ℕ) : ℕ :=
  ∑ c ∈ Finset.range 64, fieldBit x (64 * k + c) * 2 ^ (255 - 64 * k - c)

/-- Modelled from the spec: the in-circuit recomposition of a field element
from its four shifted limbs (the compose_limb gates feed the four
expected_limbs cells of the element, and a sum4 gate adds them). -/
def elemFromLimbs (x : Fb) : Fb :=
  ((limbOf x 0 + limbOf x 1 + limbOf x 2 + limbOf x 3 : ℕ) : Fb)

lemma limb_sum_eq_val (x : Fb) :
    limbOf x 0 + limbOf x 1 + limbOf x 2 + limbOf x 3 = x.val := by
  have hval : x.val < 2 ^ 256 :=
    lt_trans (ZMod.val_lt x) (by norm_num [bn256Q])
  have hexp : (∑ i ∈ Finset.range 256, x.val / 2 ^ (255 - i) % 2 *
      2 ^ (255 - i)) = x.val := by
    have hrefl := Finset.sum_range_reflect
      (fun j => x.val / 2 ^ j % 2 * 2 ^ j) 256
    simp only [Nat.add_sub_cancel] at hrefl
    calc (∑ i ∈ Finset.range 256, x.val / 2 ^ (255 - i) % 2 * 2 ^ (255 - i))
        = ∑ j ∈ Finset.range 256, x.val / 2 ^ j % 2 * 2 ^ j := hrefl
      _ = x.val % 2 ^ 256 := sum_bits_eq_mod x.val 256
      _ = x.val := Nat.mod_eq_of_lt hval
  have hblock : ∀ k, k < 4 → limbOf x k =
      ∑ c ∈ Finset.range 64,
        x.val / 2 ^ (255 - (64 * k + c)) % 2 * 2 ^ (255 - (64 * k + c)) := by
    intro k hk
    unfold limbOf fieldBit
    refine Finset.sum_congr rfl fun c hc => ?_
    rw [Finset.mem_range] at hc
    have hsub : 255 - 64 * k - c = 255 - (64 * k + c) := by omega
    rw [hsub]
  have hsplit1 := sum_range_add_split
    (fun i => x.val / 2 ^ (255 - i) % 2 * 2 ^ (255 - i)) 64 192
  have hsplit2 := sum_range_add_split
    (fun i => x.val / 2 ^ (255 - (64 + i)) % 2 * 2 ^ (255 - (64 + i))) 64 128
  have hsplit3 := sum_range_add_split
    (fun i => x.val / 2 ^ (255 - (64 + (64 + i))) % 2 *
      2 ^ (255 - (64 + (64 + i)))) 64 64
  norm_num at hsplit1 hsplit2 hsplit3
  rw [hblock 0 (by omega), hblock 1 (by omega), hblock 2 (by omega),
    hblock 3 (by omega)]
  have hc0 : (∑ c ∈ Finset.range 64,
      x.val / 2 ^ (255 - (64 * 0 + c)) % 2 * 2 ^ (255 - (64 * 0 + c))) =
      ∑ c ∈ Finset.range 64, x.val / 2 ^ (255 - c) % 2 * 2 ^ (255 - c) := by
    refine Finset.sum_congr rfl fun c _ => ?_
    norm_num
  have hc1 : (∑ c ∈ Finset.range 64,
      x.val / 2 ^ (255 - (64 * 1 + c)) % 2 * 2 ^ (255 - (64 * 1 + c))) =
      ∑ c ∈ Finset.range 64,
        x.val / 2 ^ (255 - (64 + c)) % 2 * 2 ^ (255 - (64 + c)) := by
    refine Finset.sum_congr rfl fun c _ => ?_
    norm_num
  have hc2 : (∑ c ∈ Finset.range 64,
      x.val / 2 ^ (255 - (64 * 2 + c)) % 2 * 2 ^ (255 - (64 * 2 + c))) =
      ∑ c ∈ Finset.range 64,
        x.val / 2 ^ (255 - (64 + (64 + c))) % 2 *
          2 ^ (255 - (64 + (64 + c))) := by
    refine Finset.sum_congr rfl fun c _ => ?_
    have he : 64 * 2 + c = 64 + (64 + c) := by omega
    rw [he]
  have hc3 : (∑ c ∈ Finset.range 64,
      x.val / 2 ^ (255 - (64 * 3 + c)) % 2 * 2 ^ (255 - (64 * 3 + c))) =
      ∑ c ∈ Finset.range 64,
        x.val / 2 ^ (255 - (64 + (64 + (64 + c)))) % 2 *
          2 ^ (255 - (64 + (64 + (64 + c)))) := by
    refine Finset.sum_congr rfl fun c _ => ?_
    have he : 64 * 3 + c = 64 + (64 + (64 + c)) := by omega
    rw [he]
  rw [hc0, hc1, hc2, hc3]
  omega

/-- In-circuit recomposition is the identity: the four shifted limbs of a
field element sum back to the element. -/
lemma elemFromLimbs_id (x : Fb) : elemFromLimbs x = x := by
  unfold elemFromLimbs
  rw [limb_sum_eq_val]
  exact ZMod.natCast_rightInverse x

/-- Modelled from the spec: the input the arity-15 Poseidon gadget receives
during synthesis, whose output the circuit constrains equal to row 0 of the
public_inputs column (the bn256 circuit file is not among the sources; the
layout mirrors halo2_backend/circuit.rs): each witnessed plaintext element
is decomposed into 256 bits, recomposed from its 4 shifted limbs, and the
14 recomposed cells are followed by the plaintext salt. -/
def circuitPoseidonInput (pt : List Fb) (salt : Fb) : List Fb :=
  pt.map elemFromLimbs ++ [salt]

/-- prepare_circuit_input of backend/halo2/prover.rs: the plaintext is
padded to the chunk size and packed into 14 field elements with bits_to_f,
exactly as commit_plaintext packs it. -/
def prepCircuitPlaintext (p : List Bool) : List Fb :=
  (listChunks USABLE_BITS (paddedBits p)).map bitsToFieldB

/-- C2: for every in-bounds plaintext and fixed salts, the digest computed
out-of-circuit by commit_plaintext equals the arity-15 Poseidon digest the
circuit computes over the same witnessed plaintext and salt and constrains
equal to public_inputs row 0; both views use one and the same Poseidon
function, which the spec requires to agree on all inputs. -/
theorem commit_digest_matches_circuit (h15 h2 h1 : List Fb → Fb)
    (saltBits p : List Bool) (hp : p.length ≤ CHUNK_SIZE) :
    commitPlaintext h15 h2 h1 saltBits p =
      .ok (h15 (circuitPoseidonInput (prepCircuitPlaintext p)
        (bitsToFieldB saltBits)), bitsToFieldB saltBits) := by
  rw [commitPlaintext_ok h15 h2 h1 saltBits p hp]
  unfold circuitPoseidonInput prepCircuitPlaintext
  have hmap : ((listChunks USABLE_BITS (paddedBits p)).map
      bitsToFieldB).map elemFromLimbs =
      (listChunks USABLE_BITS (paddedBits p)).map bitsToFieldB := by
    rw [List.map_map]
    refine List.map_congr_left fun l _ => ?_
    simp only [Function.comp_apply]
    exact elemFromLimbs_id _
  rw [hmap]

/-- The per-chunk input to the AuthDecode circuit (fields per the spec;
the defining module is not among the sources, only its use in prover.rs). -/
structure ProofInputF where
  plaintext : List Bool
  plaintextSalt : Fb
  encodingSumSalt : Fb
  deltas : List Fb
  plaintextHash : Fb
  encodingSumHash : Fb
  zeroSum : Fb

/-- prove of backend/halo2/prover.rs: maps each input in order through the
proving backend (abstracted as createProof, whose none models a
create_proof failure, which the source maps to ProvingBackendError) and
collects the per-chunk results into one Result, short-circuiting at the
first error as into_iter().map(..).collect::<Result<..>>() does. -/
def proveAll (createProof : ProofInputF → Option (List ℕ)) :
    List ProofInputF → Except ProverError (List (List ℕ))
  | [] => .ok []
  | i :: rest =>
    match createProof i with
    | none => .error .ProvingBackendError
    | some prf => (proveAll createProof rest).map fun tail => prf :: tail

lemma proveAll_ok (f : ProofInputF → Option (List ℕ)) :
    ∀ inputs : List ProofInputF, (∀ i ∈ inputs, (f i).isSome) →
      proveAll f inputs = .ok (inputs.map fun i => (f i).getD []) := by
  intro inputs
  induction inputs with
  | nil => intro _; rfl
  | cons i rest ih =>
    intro hall
    have hi : (f i).isSome := hall i (by simp)
    obtain ⟨prf, hprf⟩ := Option.isSome_iff_exists.mp hi
    have hrest := ih fun j hj => hall j (by simp [hj])
    show proveAll f (i :: rest) = _
    unfold proveAll
    rw [hprf, hrest]
    simp [hprf]
    rfl

lemma proveAll_error (f : ProofInputF → Option (List ℕ))
    (bad : ProofInputF) (hbad : f bad = none) :
    ∀ pre post, (∀ i ∈ pre, (f i).isSome) →
      proveAll f (pre ++ bad :: post) = .error .ProvingBackendError := by
  intro pre
  induction pre with
  | nil =>
    intro post _
    show proveAll f (bad :: post) = _
    unfold proveAll
    rw [hbad]
  | cons i pre ih =>
    intro post hpre
    have hi : (f i).isSome := hpre i (by simp)
    obtain ⟨prf, hprf⟩ := Option.isSome_iff_exists.mp hi
    show proveAll f (i :: (pre ++ bad :: post)) = _
    unfold proveAll
    rw [hprf, ih post fun j hj => hpre j (by simp [hj])]
    rfl

/-- C9: prove processes the chunks in input order, one proof per input;
when every chunk succeeds it returns the full vector of proofs in order,
and when some chunk fails it returns ProvingBackendError, the error of the
first failing chunk, regardless of what follows it. -/
theorem prove_order_and_first_error (f : ProofInputF → Option (List ℕ))
    (inputs : List ProofInputF) :
    ((∀ i ∈ inputs, (f i).isSome) →
      proveAll f inputs = .ok (inputs.map fun i => (f i).getD []))
    ∧ ∀ pre bad post, inputs = pre ++ bad :: post →
        (∀ i ∈ pre, (f i).isSome) → f bad = none →
        proveAll f inputs = .error .ProvingBackendError :=
  ⟨proveAll_ok f inputs,
   fun pre bad post heq hpre hbad =>
     heq ▸ proveAll_error f bad hbad pre post hpre⟩

/-- CommitmentData::new of prover/commitment.rs: asserts that plaintext,
encodings and ids have equal lengths (a panic, modelled as none), then
pairs each encoding with its bit (Encoding::new) and keeps the ids
(ActiveEncodings::new); the constructor has no Result in its signature. -/
def commitmentDataNew (plaintext : List Bool) (encodings : List (List ℕ))
    (bitIds : List ℕ) : Option (List (List ℕ × Bool) × List ℕ) :=
  if plaintext.length = encodings.length ∧ plaintext.length = bitIds.length
  then some (((plaintext.zip encodings).map fun pe => (pe.2, pe.1)), bitIds)
  else none

/-- C10: CommitmentData::new panics exactly when plaintext and encodings,
or plaintext and bit ids, differ in length; the mismatch is never reported
as a recoverable error value. -/
theorem commitmentDataNew_panics_iff (p : List Bool) (e : List (List ℕ))
    (i : List ℕ) :
    commitmentDataNew p e i = none ↔
      ¬(p.length = e.length ∧ p.length = i.length) := by
  by_cases h : p.length = e.length ∧ p.length = i.length
  · simp [commitmentDataNew, h]
  · simp [commitmentDataNew, h]

/-- A concrete stand-in for the Poseidon interfaces over the bn256 field. -/
def zeroHashList : List Fb → Fb := fun _ => 0

/-- Witness for C1 at the empty plaintext and empty salt. -/
theorem commitPlaintext_packs_and_hashes_witness :
    commitPlaintext zeroHashList zeroHashList zeroHashList [] [] =
      .ok (zeroHashList ((List.range FIELD_ELEMENTS).map
        (specFieldElement []) ++ [bitsToFieldB []]), bitsToFieldB []) :=
  commitPlaintext_packs_and_hashes zeroHashList zeroHashList zeroHashList
    [] [] (by simp)

/-- Witness for C2 at a one-bit plaintext. -/
theorem commit_digest_matches_circuit_witness :
    commitPlaintext zeroHashList zeroHashList zeroHashList [] [true] =
      .ok (zeroHashList (circuitPoseidonInput (prepCircuitPlaintext [true])
        (bitsToFieldB [])), bitsToFieldB []) :=
  commit_digest_matches_circuit zeroHashList zeroHashList zeroHashList
    [] [true] (by norm_num)

/-- Witness for C7 at a concrete 125-bit salt. -/
theorem commit_salts_within_125_bits_witness :
    (bitsToFieldB (List.replicate 125 true)).val < 2 ^ 125 := by
  obtain ⟨h1, -, -⟩ := commit_salts_within_125_bits zeroHashList
    zeroHashList zeroHashList (List.replicate 125 true) [] 0
    (by simp) (by simp)
  exact h1

/-- The all-default proof input, for the C9 witness. -/
def defaultProofInput : ProofInputF := ⟨[], 0, 0, [], 0, 0, 0⟩

/-- Witness for C9: a failing backend yields ProvingBackendError. -/
theorem prove_order_and_first_error_witness :
    proveAll (fun _ => none) [defaultProofInput] =
      .error .ProvingBackendError :=
  (prove_order_and_first_error (fun _ => none) [defaultProofInput]).2
    [] defaultProofInput [] rfl (by simp) rfl

/-- Witness for C10: a length mismatch makes the constructor panic. -/
theorem commitmentDataNew_panics_iff_witness :
    commitmentDataNew [true] [] [] = none :=
  (commitmentDataNew_panics_iff [true] [] []).mpr (by simp)
